import Mathlib

set_option maxRecDepth 150000

/-!
Verification of the challenge-solver specification of TheKeyMaster against its
source (src/bot.js, with the older solver variant of src/unnamed/part_000).

The embedding models the deterministic verification solvers:
  * `KeyMaster.solveChallenge`  — bot.js lines 77-131 (the full-strip solver,
    byte-identical in part_002 lines 77-131 and part_003 lines 54-137);
  * `KeyMaster.Campaign.solveChallenge` — part_000 lines 42-126 (the
    selective-merge solver).

Modelling conventions (documented deviations from raw JavaScript):
  * characters are classified by ASCII code point; `toLowerCase` is modelled
    as ASCII lowering and `\s` as the six ASCII whitespace characters (the
    solver's regexes only use ASCII classes, and every non-alphanumeric
    character is replaced by a space immediately after lowering);
  * JavaScript floating-point values are modelled as exact integer fractions
    (`JNum`, a numerator/denominator pair that is never reduced); all numbers
    the solver extracts are naturals, so +, -, * are exact, and division by
    zero yields a zero denominator which `toFixedJ` renders as JavaScript
    does ("Infinity", "-Infinity" or "NaN");
  * `Number.prototype.toFixed(2)` is modelled by `toFixedJ`: sign taken from
    the value, then the magnitude rounded half-up to hundredths (the
    ECMAScript "ties pick the larger n" rule).
-/

namespace KeyMaster

/-! ### Character classes (ASCII, by code point) -/

/-- JavaScript `\s`, restricted to ASCII: space, tab, LF, VT, FF, CR. -/
def isWsChar (c : Char) : Bool :=
  decide (c.toNat = 32 ∨ c.toNat = 9 ∨ c.toNat = 10 ∨ c.toNat = 11 ∨
    c.toNat = 12 ∨ c.toNat = 13)

/-- The regex class `[a-z]`. -/
def isLowerAlpha (c : Char) : Bool :=
  decide (97 ≤ c.toNat ∧ c.toNat ≤ 122)

/-- The range `A-Z`, used to model ASCII `toLowerCase`. -/
def isUpperAlpha (c : Char) : Bool :=
  decide (65 ≤ c.toNat ∧ c.toNat ≤ 90)

/-- The regex class `[0-9]` (`\d`). -/
def isDigitChar (c : Char) : Bool :=
  decide (48 ≤ c.toNat ∧ c.toNat ≤ 57)

/-- The regex class `\w` (`[A-Za-z0-9_]`), used for `\b` boundaries. -/
def isWordChar (c : Char) : Bool :=
  isLowerAlpha c || isUpperAlpha c || isDigitChar c || decide (c.toNat = 95)

/-- ASCII `toLowerCase` on one character. -/
def toLowerAscii (c : Char) : Char :=
  if isUpperAlpha c then Char.ofNat (c.toNat + 32) else c

/-- bot.js line 78, `replace(/[^a-z0-9\s]/g, " ")` applied per character. -/
def keepAlnumWs (c : Char) : Char :=
  if isLowerAlpha c || isDigitChar c || isWsChar c then c else ' '

/-! ### Folding of repeated characters

`sqz p two l` processes `l` when the previously emitted character is `p`,
and `two` records whether `p` has already been emitted twice in the current
run.  `capRun2` is `replace(/(.)\1{2,}/g, "$1$1")`: every maximal run of an
identical character is capped at length 2 (bot.js lines 79 and 81).
`dedupAdj` is `replace(/(.)\1+/g, "$1")` of part_000 lines 47 and 68: every
run collapses to a single character. -/

def sqz (p : Char) (two : Bool) : List Char → List Char
  | [] => []
  | c :: cs =>
    if c = p then
      if two then sqz p true cs else c :: sqz p true cs
    else c :: sqz c false cs

def capRun2 : List Char → List Char
  | [] => []
  | c :: cs => c :: sqz c false cs

def dedupAdj : List Char → List Char
  | [] => []
  | [a] => [a]
  | a :: b :: t => if a = b then dedupAdj (b :: t) else a :: dedupAdj (b :: t)

/-- No three equal consecutive characters. -/
def noTriple : List Char → Bool
  | a :: b :: c :: t => if a = b ∧ b = c then false else noTriple (b :: c :: t)
  | _ => true

/-- No three equal consecutive lowercase letters (the spec's letter-fold
invariant). -/
def noLetterTriple : List Char → Bool
  | a :: b :: c :: t =>
    if isLowerAlpha a = true ∧ a = b ∧ b = c then false
    else noLetterTriple (b :: c :: t)
  | _ => true

/-- Helper for `runs`: the run currently being read is `n` copies of `c`. -/
def runsAux (c : Char) (n : ℕ) : List Char → List (Char × ℕ)
  | [] => [(c, n)]
  | d :: ds => if d = c then runsAux c (n + 1) ds else (c, n) :: runsAux d 1 ds

/-- Maximal-run decomposition of a string: each maximal run of an identical
character paired with its length.  Specification-side vocabulary for stating
what the repeated-letter fold does to each run. -/
def runs : List Char → List (Char × ℕ)
  | [] => []
  | c :: cs => runsAux c 1 cs

/-- No two adjacent whitespace characters (the shape left by collapsing
whitespace runs). -/
def noDoubleWs : List Char → Bool
  | a :: b :: t =>
    if isWsChar a = true ∧ isWsChar b = true then false
    else noDoubleWs (b :: t)
  | _ => true

/-! ### Whitespace collapsing and trimming (bot.js line 78) -/

/-- `replace(/\s+/g, " ")`: each maximal whitespace run becomes one space.
The flag records whether the previous character was whitespace. -/
def cwAux (inWs : Bool) : List Char → List Char
  | [] => []
  | c :: cs =>
    if isWsChar c then
      if inWs then cwAux true cs else ' ' :: cwAux true cs
    else c :: cwAux false cs

def collapseWs (l : List Char) : List Char := cwAux false l

/-- Remove trailing whitespace (the right half of `trim()`). -/
def dropTrailingWs : List Char → List Char
  | [] => []
  | c :: cs =>
    let r := dropTrailingWs cs
    if r.isEmpty && isWsChar c then [] else c :: r

/-- Lowercase, replace non-alphanumerics by spaces, collapse whitespace,
trim — bot.js line 78 (identical in part_000 line 44). -/
def baseClean (l : List Char) : List Char :=
  dropTrailingWs
    (((collapseWs ((l.map toLowerAscii).map keepAlnumWs)).dropWhile isWsChar))

/-! ### Applying a function to each maximal `[a-z]+` run

`mlwAux f acc l`: `acc` holds the (reversed) letters of the lowercase run
currently being read; on reaching a non-letter or the end, the run is flushed
through `f`.  This models `replace(/[a-z]+/g, w => f(w))`. -/

def flushW (f : List Char → List Char) : List Char → List Char
  | [] => []
  | a :: as => f ((a :: as).reverse)

def mlwAux (f : List Char → List Char) (acc : List Char) : List Char → List Char
  | [] => flushW f acc
  | c :: cs =>
    if isLowerAlpha c then mlwAux f (c :: acc) cs
    else flushW f acc ++ c :: mlwAux f [] cs

def mapLetterRuns (f : List Char → List Char) (l : List Char) : List Char :=
  mlwAux f [] l

/-- The Normalizer of bot.js lines 78-79: `baseClean` then the per-word fold
of 3+ repeated letters down to 2. -/
def normalizeChars (l : List Char) : List Char :=
  mapLetterRuns capRun2 (baseClean l)

def normalize (s : String) : String :=
  String.mk (normalizeChars s.data)

/-! ### Decimal numerals -/

/-- The ASCII digit for `n % 10`. -/
def digitChar (n : ℕ) : Char := Char.ofNat (48 + n % 10)

def natToCharsAux : ℕ → ℕ → List Char
  | 0, _ => []
  | f + 1, n =>
    if n < 10 then [digitChar n]
    else natToCharsAux f (n / 10) ++ [digitChar n]

/-- Decimal rendering of a natural number. -/
def natToChars (n : ℕ) : List Char := natToCharsAux (n + 1) n

/-- Value of a run of ASCII digits (how `Number(...)` reads the integral
numerals the solver extracts). -/
def digitsToNat (l : List Char) : ℕ :=
  l.foldl (fun a c => a * 10 + (c.toNat - 48)) 0

/-! ### JavaScript numbers as exact fractions

Every number the solver extracts is a natural; the only operation that can
leave the integers is the final division.  `JNum` is an unreduced fraction;
a zero denominator encodes the JavaScript infinities of division by zero. -/

structure JNum where
  num : ℤ
  den : ℤ

def jnum (n : ℕ) : JNum := ⟨n, 1⟩

def addJ (x y : JNum) : JNum := ⟨x.num * y.den + y.num * x.den, x.den * y.den⟩

def subJ (x y : JNum) : JNum := ⟨x.num * y.den - y.num * x.den, x.den * y.den⟩

def mulJ (x y : JNum) : JNum := ⟨x.num * y.num, x.den * y.den⟩

def divJ (x y : JNum) : JNum := ⟨x.num * y.den, x.den * y.num⟩

/-- `reduce((a, b) => a + b)` — fold without initial value (the list is
guaranteed non-empty by the minimum-numbers check). -/
def reduceAddJ : List JNum → JNum
  | [] => ⟨0, 1⟩
  | x :: xs => xs.foldl addJ x

/-- `reduce((a, b) => a * b)`. -/
def reduceMulJ : List JNum → JNum
  | [] => ⟨0, 1⟩
  | x :: xs => xs.foldl mulJ x

/-- `numbers.slice(1).reduce((a, b) => a + b, 0)`. -/
def sumFromZeroJ (l : List JNum) : JNum := l.foldl addJ ⟨0, 1⟩

/-- `Number.prototype.toFixed(2)`: sign of the value, then the magnitude
rounded half-up to hundredths; `Infinity`, `-Infinity` and `NaN` print as
those literal strings. -/
def toFixedJ (x : JNum) : List Char :=
  if x.den = 0 then
    if x.num = 0 then "NaN".data
    else if 0 < x.num then "Infinity".data
    else "-Infinity".data
  else
    (if (x.num < 0 ∧ 0 < x.den) ∨ (0 < x.num ∧ x.den < 0) then ['-'] else [])
    ++ natToChars ((x.num.natAbs * 200 + x.den.natAbs) /
        (2 * x.den.natAbs) / 100)
    ++ '.' :: [digitChar ((x.num.natAbs * 200 + x.den.natAbs) /
        (2 * x.den.natAbs) / 10),
      digitChar ((x.num.natAbs * 200 + x.den.natAbs) / (2 * x.den.natAbs))]

/-! ### Shape of a two-decimal numeral (the spec's Answer format) -/

/-! ### Literal digit sequences: `/\b(\d+(?:\.\d+)?)\b/g`

The text this regex scans (`s`, the normalizer output) contains only
lowercase letters, digits and spaces — in particular no `.` — so the
optional fractional part never matches, and a run of digits matches exactly
when it is flanked by a non-word character (here: a space) or the string
edge on both sides.  `prevWord` records whether the preceding character was
a word character. -/
def digitScanF : ℕ → Bool → List Char → List ℕ
  | 0, _, _ => []
  | _ + 1, _, [] => []
  | f + 1, prevWord, c :: cs =>
    if isDigitChar c && !prevWord then
      let ds := (c :: cs).takeWhile isDigitChar
      let rest := (c :: cs).dropWhile isDigitChar
      if (match rest with | [] => true | d :: _ => !isWordChar d) then
        digitsToNat ds :: digitScanF f true rest
      else digitScanF f true rest
    else digitScanF f (isWordChar c) cs

def digitMatches (l : List Char) : List ℕ :=
  digitScanF (l.length + 1) false l

/-! ### Word-number matches: `matchAll(/(?:^|\s)(\d+)(?:\s|$)/g)`

bot.js line 108.  A successful match consumes its trailing whitespace, so a
digit run whose leading separator was consumed by the previous match is not
matched — `matchAll` resumes at `lastIndex`.  `atStart` is true only at
position 0 (the `^` alternative). -/

def wnMatch (atStart : Bool) (l : List Char) : Option (ℕ × List Char) :=
  let caretTry : Option (ℕ × List Char) :=
    if atStart then
      match l.takeWhile isDigitChar, l.dropWhile isDigitChar with
      | [], _ => none
      | ds, [] => some (digitsToNat ds, [])
      | ds, r :: rs => if isWsChar r then some (digitsToNat ds, rs) else none
    else none
  match caretTry with
  | some x => some x
  | none =>
    match l with
    | [] => none
    | c :: cs =>
      if isWsChar c then
        match cs.takeWhile isDigitChar, cs.dropWhile isDigitChar with
        | [], _ => none
        | ds, [] => some (digitsToNat ds, [])
        | ds, r :: rs => if isWsChar r then some (digitsToNat ds, rs) else none
      else none

def wnScanF : ℕ → Bool → List Char → List ℕ
  | 0, _, _ => []
  | _ + 1, _, [] => []
  | f + 1, atStart, c :: cs =>
    match wnMatch atStart (c :: cs) with
    | some (n, rest) => n :: wnScanF f false rest
    | none => wnScanF f false cs

def wordNums (l : List Char) : List ℕ :=
  wnScanF (l.length + 1) true l

/-! ### `[...new Set(...)]` — deduplication keeping first occurrences -/

def dedupSeen (seen : List ℕ) : List ℕ → List ℕ
  | [] => []
  | a :: l =>
    if seen.contains a then dedupSeen seen l
    else a :: dedupSeen (a :: seen) l

def dedupFirstOcc (l : List ℕ) : List ℕ := dedupSeen [] l

/-! ### Substring tests (the `regex.test(text)` operation-cue checks) -/

def matchesAt : List Char → List Char → Bool
  | [], _ => true
  | _ :: _, [] => false
  | p :: ps, c :: cs => decide (c = p) && matchesAt ps cs

def hasSub (l pat : List Char) : Bool :=
  match l with
  | [] => pat.isEmpty
  | _ :: cs => matchesAt pat l || hasSub cs pat

def hasAny (l : List Char) (pats : List String) : Bool :=
  pats.any (fun p => hasSub l p.data)

/-! ### The full-strip solver's word map (bot.js lines 83-101)

Each entry is a list of alternative literals (regex alternation / an optional
letter expands to two literals, tried in source order) plus a one-character
lookahead; `replace(re, " val ")` without the `g` flag replaces only the
leftmost occurrence. -/

inductive BLook
  | always
  | notChar (c : Char)
  | notLower

structure WEntry where
  alts : List (List Char)
  look : BLook
  val : ℕ

/-- Lookahead check: `(?=[^x]|$)` or `(?=[^a-z]|$)` on the unconsumed rest. -/
def lookOk : BLook → List Char → Bool
  | .always, _ => true
  | .notChar _, [] => true
  | .notChar a, d :: _ => decide (d ≠ a)
  | .notLower, [] => true
  | .notLower, d :: _ => !isLowerAlpha d

def litStrip : List Char → List Char → Option (List Char)
  | [], l => some l
  | _ :: _, [] => none
  | p :: ps, c :: cs => if c = p then litStrip ps cs else none

def altsStrip (lk : BLook) : List (List Char) → List Char → Option (List Char)
  | [], _ => none
  | a :: rest, l =>
    match litStrip a l with
    | some r => if lookOk lk r then some r else altsStrip lk rest l
    | none => altsStrip lk rest l

def replFirstAux (e : WEntry) (rep : List Char) : List Char → Option (List Char)
  | [] => none
  | c :: cs =>
    match altsStrip e.look e.alts (c :: cs) with
    | some rest => some (rep ++ rest)
    | none =>
      match replFirstAux e rep cs with
      | some r => some (c :: r)
      | none => none

/-- `stripped.replace(re, ` ${val} `)` — first occurrence only. -/
def replFirst (e : WEntry) (l : List Char) : List Char :=
  match replFirstAux e (' ' :: (natToChars e.val ++ [' '])) l with
  | some r => r
  | none => l

def tensWordList : List (List Char × ℕ) :=
  [("twenty".data, 20), ("thirty".data, 30), ("forty".data, 40),
   ("fifty".data, 50), ("sixty".data, 60), ("seventy".data, 70),
   ("eighty".data, 80), ("ninety".data, 90)]

def onesWordList : List (List Char × ℕ) :=
  [("one".data, 1), ("two".data, 2), ("three".data, 3), ("four".data, 4),
   ("five".data, 5), ("six".data, 6), ("seven".data, 7), ("eight".data, 8),
   ("nine".data, 9)]

/-- bot.js lines 84-92: `new RegExp(tens + ones)` for each tens x ones pair,
in `flatMap` order. -/
def compoundEntries : List WEntry :=
  ((tensWordList.map (fun tp =>
    onesWordList.map (fun op =>
      WEntry.mk [tp.1 ++ op.1] BLook.always (tp.2 + op.2))))).flatten

/-- bot.js lines 93-100: bare tens, teens with optional-letter typo variants,
then single numbers guarded by lookaheads. -/
def tailEntries : List WEntry :=
  [⟨["ninety".data], .always, 90⟩, ⟨["eighty".data], .always, 80⟩,
   ⟨["seventy".data], .always, 70⟩, ⟨["sixty".data], .always, 60⟩,
   ⟨["fifty".data], .always, 50⟩, ⟨["fourty".data, "forty".data], .always, 40⟩,
   ⟨["thirty".data], .always, 30⟩, ⟨["twenty".data], .always, 20⟩,
   ⟨["nineteen".data], .always, 19⟩, ⟨["eighteen".data], .always, 18⟩,
   ⟨["seventeen".data], .always, 17⟩, ⟨["sixteen".data], .always, 16⟩,
   ⟨["fifteen".data, "fifeen".data], .always, 15⟩,
   ⟨["fourteen".data, "foureen".data], .always, 14⟩,
   ⟨["thirteen".data, "thireen".data], .always, 13⟩,
   ⟨["twelve".data], .always, 12⟩, ⟨["eleven".data], .always, 11⟩,
   ⟨["ten".data], .notLower, 10⟩, ⟨["nine".data], .notChar 't', 9⟩,
   ⟨["eight".data], .notChar 'e', 8⟩, ⟨["seven".data], .notChar 't', 7⟩,
   ⟨["six".data], .notChar 't', 6⟩, ⟨["five".data], .always, 5⟩,
   ⟨["four".data], .notChar 't', 4⟩, ⟨["three".data], .always, 3⟩,
   ⟨["two".data], .always, 2⟩, ⟨["one".data], .notLower, 1⟩]

def wordMapEntries : List WEntry := compoundEntries ++ tailEntries

def applyWordMap (l : List Char) : List Char :=
  wordMapEntries.foldl (fun acc e => replFirst e acc) l

/-! ### The full-strip solver (bot.js lines 77-131) -/

/-- bot.js lines 80-81 followed by the word-map loop of lines 103-105:
strip all whitespace, cap repeated runs at 2 again, substitute number
words. -/
def strippedText (c : List Char) : List Char :=
  applyWordMap (capRun2 ((normalizeChars c).filter (fun x => !isWsChar x)))

/-- bot.js lines 107-109: word-derived numbers are primary; the literal-digit
fallback union goes through a deduplicating `Set`. -/
def extractNumbers (c : List Char) : List ℕ :=
  let wn := wordNums (strippedText c)
  if 2 ≤ wn.length then wn
  else dedupFirstOcc (wn ++ digitMatches (normalizeChars c))

/-- bot.js line 115: the operation cues scan the lowercased original, the
normalized text and the substituted stripped text, joined by spaces. -/
def opText (c : List Char) : List Char :=
  (c.map toLowerAscii) ++ ' ' :: (normalizeChars c ++ ' ' :: strippedText c)

def subtractionCue (t : List Char) : Bool :=
  hasAny t ["slow", "lose", "decrease", "subtract", "minus", "less",
    "fewer", "reduc"]

def resultCue (t : List Char) : Bool :=
  hasAny t ["new", "result", "final", "what"]

def tripleCue (t : List Char) : Bool := hasSub t "triple".data

def doubleCue (t : List Char) : Bool := hasSub t "double".data

def multiplyCue (t : List Char) : Bool := hasSub t "multipl".data

def perEachTimesCue (t : List Char) : Bool := hasAny t ["per", "each", "times"]

/-- `/how\s*much\s*total|total/`: any match of the first alternative ends in
the literal `total`, so the test is equivalent to containing `total`. -/
def totalCue (t : List Char) : Bool := hasSub t "total".data

def divisionCue (t : List Char) : Bool := hasAny t ["divide", "split", "ratio"]

inductive SolveError
  | insufficientNumbers

/-- bot.js lines 117-130: the operation-inference priority chain.  Every
branch of the source returns `(expression).toFixed(2)`, so the value is
computed here and formatted once at the call site. -/
def inferAnswer (nums : List ℕ) (t : List Char) : JNum :=
  if subtractionCue t && resultCue t then
    subJ ((nums.map jnum).headD ⟨0, 1⟩) (sumFromZeroJ ((nums.map jnum).drop 1))
  else if tripleCue t then mulJ ((nums.map jnum).headD ⟨0, 1⟩) ⟨3, 1⟩
  else if doubleCue t then mulJ ((nums.map jnum).headD ⟨0, 1⟩) ⟨2, 1⟩
  else if multiplyCue t then reduceMulJ (nums.map jnum)
  else if perEachTimesCue t && totalCue t then reduceMulJ (nums.map jnum)
  else if divisionCue t && !totalCue t then
    divJ ((nums.map jnum).headD ⟨0, 1⟩) (((nums.map jnum).drop 1).headD ⟨0, 1⟩)
  else reduceAddJ (nums.map jnum)

def solveChars (c : List Char) : Except SolveError (List Char) :=
  if (extractNumbers c).length < 2 then .error .insufficientNumbers
  else .ok (toFixedJ (inferAnswer (extractNumbers c) (opText c)))

/-- bot.js `solveChallenge` (lines 77-131). -/
def solveChallenge (c : String) : Except SolveError String :=
  match solveChars c.data with
  | .error e => .error e
  | .ok l => .ok (String.mk l)

/-! ### The module-level mutable state of bot.js (lines 275-279)

`solveChallenge` closes over the module scope but reads none of it; passing
the state explicitly lets the determinism hyperproperty be stated. -/

structure BotState where
  commentedPosts : List ℕ
  followedAgents : List String
  upvotedPosts : List ℕ
  lastPostTime : ℕ
  cycleCount : ℕ

/-- An invocation of the solver in the ambient module state: the body of
bot.js lines 77-131 mentions only its argument and locals, and mutates
nothing. -/
def solveInvoke (c : String) (st : BotState) :
    Except SolveError String × BotState :=
  (solveChallenge c, st)

end KeyMaster

namespace KeyMaster.Campaign

open KeyMaster

/-! ### The selective-merge solver of part_000 (lines 42-126) -/

/-- part_000 lines 47 and 68: collapse every repeated letter run to one. -/
def cleanWords (l : List Char) : List Char := mapLetterRuns dedupAdj l

/-- JavaScript `split(" ")` (keeps empty pieces). -/
def splitOnSpace : List Char → List (List Char)
  | [] => [[]]
  | c :: cs =>
    if c = ' ' then [] :: splitOnSpace cs
    else
      match splitOnSpace cs with
      | [] => [[c]]
      | t :: ts => (c :: t) :: ts

/-- `/^\d+$/.test(tok)`. -/
def isAllDigits (w : List Char) : Bool :=
  !w.isEmpty && w.all isDigitChar

/-- part_000 lines 51-65: merge a token of length at most 3 into its
neighbour unless either side is purely numeric. -/
def mergeAux (lastTok : List Char) : List (List Char) → List (List Char)
  | [] => [lastTok]
  | cur :: rest =>
    if isAllDigits lastTok || isAllDigits cur then lastTok :: mergeAux cur rest
    else if lastTok.length ≤ 3 || cur.length ≤ 3 then
      mergeAux (lastTok ++ cur) rest
    else lastTok :: mergeAux cur rest

def mergeTokens : List (List Char) → List (List Char)
  | [] => []
  | t :: ts => mergeAux t ts

def joinSpace : List (List Char) → List Char
  | [] => []
  | t :: ts =>
    match ts with
    | [] => t
    | _ => t ++ ' ' :: joinSpace ts

/-! Patterns of the part_000 word map: literals, optional letters (`t?`),
whitespace gaps (`\s*`) and word boundaries (`\b`), matched with the
backtracking order of the JavaScript regex engine (greedy `?` and `*`,
alternatives in source order, leftmost match, `g` flag replaces all). -/

inductive PAtom
  | lit (c : Char)
  | opt (c : Char)
  | gap
  | wb

def plit (s : String) : List PAtom := s.data.map PAtom.lit

/-- Match a pattern at the current position.  `prev` is the character of the
original text immediately before the unread rest (for `\b`).  Returns the
final `prev` and the unread rest on success.  Fuel bounds the backtracking
depth; each step consumes a character or an atom, so
`pattern length + text length + 1` always suffices. -/
def pmatchF : ℕ → List PAtom → Option Char → List Char →
    Option (Option Char × List Char)
  | 0, _, _, _ => none
  | _ + 1, [], prev, l => some (prev, l)
  | f + 1, .lit a :: ps, _, l =>
    match l with
    | [] => none
    | c :: cs => if c = a then pmatchF f ps (some c) cs else none
  | f + 1, .opt a :: ps, prev, l =>
    match l with
    | [] => pmatchF f ps prev []
    | c :: cs =>
      if c = a then
        match pmatchF f ps (some c) cs with
        | some r => some r
        | none => pmatchF f ps prev (c :: cs)
      else pmatchF f ps prev (c :: cs)
  | f + 1, .gap :: ps, prev, l =>
    match l with
    | [] => pmatchF f ps prev []
    | c :: cs =>
      if isWsChar c then
        match pmatchF f (.gap :: ps) (some c) cs with
        | some r => some r
        | none => pmatchF f ps prev (c :: cs)
      else pmatchF f ps prev (c :: cs)
  | f + 1, .wb :: ps, prev, l =>
    let pw : Bool := match prev with | some d => isWordChar d | none => false
    let nw : Bool := match l with | d :: _ => isWordChar d | [] => false
    if pw = nw then none else pmatchF f ps prev l

/-- `s.replace(re, " val ")` with the `g` flag: scan left to right, replace
every match, resume after the matched text. -/
def scanAllF (pat : List PAtom) (rep : List Char) :
    ℕ → Option Char → List Char → List Char
  | 0, _, l => l
  | _ + 1, _, [] => []
  | f + 1, prev, c :: cs =>
    match pmatchF (pat.length + cs.length + 2) pat prev (c :: cs) with
    | some (lastC, rest) => rep ++ scanAllF pat rep f lastC rest
    | none => c :: scanAllF pat rep f (some c) cs

def tensPats : List (List PAtom × ℕ) :=
  [(plit "twe" ++ [.opt 'n'] ++ plit "ty", 20),
   (plit "thi" ++ [.opt 'r'] ++ plit "ty", 30),
   (plit "fo" ++ [.opt 'r'] ++ plit "ty", 40),
   (plit "fi" ++ [.opt 'f'] ++ plit "ty", 50),
   (plit "sixty", 60),
   (plit "seve" ++ [.opt 'n'] ++ plit "ty", 70),
   (plit "eig" ++ [.opt 'h'] ++ plit "ty", 80),
   (plit "nin" ++ [.opt 'e'] ++ plit "ty", 90)]

def onesPats : List (List PAtom × ℕ) :=
  [(plit "f" ++ [.opt 'i'] ++ plit "ve", 5),
   (plit "fo" ++ [.opt 'u'] ++ plit "r", 4),
   (plit "th" ++ [.opt 'r'] ++ plit "e", 3),
   (plit "two", 2),
   (plit "one", 1)]

/-- part_000 lines 73-98: compounds 21-95 (tens pattern, `\s*`, ones
pattern), then bare tens, typo-tolerant teens, and word-bounded singles. -/
def wordMap000 : List (List PAtom × ℕ) :=
  ((tensPats.map (fun tp =>
    onesPats.map (fun op => (tp.1 ++ .gap :: op.1, tp.2 + op.2)))).flatten)
  ++ [(plit "nin" ++ [.opt 'e'] ++ plit "ty", 90),
      (plit "eig" ++ [.opt 'h'] ++ plit "ty", 80),
      (plit "seve" ++ [.opt 'n'] ++ plit "ty", 70),
      (plit "sixty", 60),
      (plit "fi" ++ [.opt 'f'] ++ plit "ty", 50),
      (plit "fo" ++ [.opt 'r'] ++ plit "ty", 40),
      (plit "thi" ++ [.opt 'r'] ++ plit "ty", 30),
      (plit "twe" ++ [.opt 'n'] ++ plit "ty", 20),
      (plit "ninet" ++ [.opt 'e'] ++ plit "n", 19),
      (plit "eight" ++ [.opt 'e'] ++ plit "n", 18),
      (plit "sevent" ++ [.opt 'e'] ++ plit "n", 17),
      (plit "sixt" ++ [.opt 'e'] ++ plit "n", 16),
      (plit "fift" ++ [.opt 'e'] ++ plit "n", 15),
      (plit "fourt" ++ [.opt 'e'] ++ plit "n", 14),
      (plit "thi" ++ [.opt 'r'] ++ plit "t" ++ [.opt 'e'] ++ plit "n", 13),
      (plit "twelve", 12),
      (plit "eleven", 11),
      (.wb :: plit "ten" ++ [.wb], 10),
      (.wb :: plit "nine" ++ [.wb], 9),
      (.wb :: plit "eight" ++ [.wb], 8),
      (.wb :: plit "seven" ++ [.wb], 7),
      (.wb :: plit "six" ++ [.wb], 6),
      (.wb :: plit "five" ++ [.wb], 5),
      (.wb :: plit "fo" ++ [.opt 'u'] ++ plit "r" ++ [.wb], 4),
      (.wb :: plit "thre" ++ [.wb], 3),
      (.wb :: plit "two" ++ [.wb], 2),
      (.wb :: plit "one" ++ [.wb], 1)]

def addCue000 (t : List Char) : Bool :=
  hasAny t ["total", "adds", "combined", "sum", "plus", "together",
    "and another"]

def subCue000 (t : List Char) : Bool :=
  hasAny t ["difference", "subtract", "minus", "less", "fewer"]

def perCue000 (t : List Char) : Bool :=
  hasAny t ["per", "each", "times", "multiply", "pinch"]

def howMuchTotalCue000 (t : List Char) : Bool := hasSub t "how much total".data

def divCue000 (t : List Char) : Bool := hasAny t ["divide", "split", "ratio"]

/-- part_000 `solveChallenge` (lines 42-126): clean, merge short fragments,
substitute number words everywhere, read `\b\d+\b` numerals, then the
part_000 cue order (add first, division without a `total` guard). -/
def solveChallenge (c : String) : Except SolveError String :=
  let s1 := cleanWords (baseClean c.data)
  let s2 := cleanWords (joinSpace (mergeTokens (splitOnSpace s1)))
  let s3 := wordMap000.foldl
    (fun acc pe =>
      scanAllF pe.1 (' ' :: (natToChars pe.2 ++ [' '])) (acc.length + 1)
        none acc)
    s2
  let nums := digitMatches s3
  if nums.length < 2 then .error .insufficientNumbers
  else
    let t := c.data.map toLowerAscii
    let qs : List JNum := nums.map jnum
    let answer : List Char :=
      if addCue000 t then toFixedJ (reduceAddJ qs)
      else if subCue000 t then
        toFixedJ (subJ (qs.headD ⟨0, 1⟩) (sumFromZeroJ (qs.drop 1)))
      else if perCue000 t && howMuchTotalCue000 t then
        toFixedJ (reduceMulJ qs)
      else if divCue000 t then
        toFixedJ (divJ (qs.headD ⟨0, 1⟩) ((qs.drop 1).headD ⟨0, 1⟩))
      else toFixedJ (reduceAddJ qs)
    .ok (String.mk answer)

end KeyMaster.Campaign

namespace KeyMaster

/-! ### Character-class facts -/

theorem ws_not_lower {c : Char} (h : isWsChar c = true) : isLowerAlpha c = false := by
  simp only [isWsChar, decide_eq_true_eq] at h
  simp only [isLowerAlpha, decide_eq_false_iff_not]
  omega

theorem lower_not_ws {c : Char} (h : isLowerAlpha c = true) : isWsChar c = false := by
  simp only [isLowerAlpha, decide_eq_true_eq] at h
  simp only [isWsChar, decide_eq_false_iff_not]
  omega

theorem digit_not_ws {c : Char} (h : isDigitChar c = true) : isWsChar c = false := by
  simp only [isDigitChar, decide_eq_true_eq] at h
  simp only [isWsChar, decide_eq_false_iff_not]
  omega

theorem lower_not_upper {c : Char} (h : isLowerAlpha c = true) :
    isUpperAlpha c = false := by
  simp only [isLowerAlpha, decide_eq_true_eq] at h
  simp only [isUpperAlpha, decide_eq_false_iff_not]
  omega

theorem digit_not_upper {c : Char} (h : isDigitChar c = true) :
    isUpperAlpha c = false := by
  simp only [isDigitChar, decide_eq_true_eq] at h
  simp only [isUpperAlpha, decide_eq_false_iff_not]
  omega

theorem space_ws : isWsChar ' ' = true := by decide

theorem space_not_upper : isUpperAlpha ' ' = false := by decide

/-! ### Runs capped at two: `sqz` and `capRun2` -/


theorem sqz_cons_eq_two (p : Char) (cs : List Char) :
    sqz p true (p :: cs) = sqz p true cs := by simp [sqz]

theorem sqz_cons_eq_one (p : Char) (cs : List Char) :
    sqz p false (p :: cs) = p :: sqz p true cs := by simp [sqz]

theorem sqz_cons_ne (p : Char) (two : Bool) {c : Char} (cs : List Char)
    (h : c ≠ p) : sqz p two (c :: cs) = c :: sqz c false cs := by
  simp [sqz, h]

theorem noTriple_cons3 (a b c : Char) (t : List Char) :
    noTriple (a :: b :: c :: t) =
      if a = b ∧ b = c then false else noTriple (b :: c :: t) := rfl

theorem sqz_mem {x : Char} : ∀ (l : List Char) (p : Char) (two : Bool),
    x ∈ sqz p two l → x ∈ l := by
  intro l
  induction l with
  | nil => intro p two h; simp [sqz] at h
  | cons c cs ih =>
    intro p two h
    by_cases hc : c = p
    · subst hc
      cases two with
      | true =>
        rw [sqz_cons_eq_two] at h
        exact List.mem_cons_of_mem c (ih c true h)
      | false =>
        rw [sqz_cons_eq_one] at h
        rcases List.mem_cons.mp h with h | h
        · exact h ▸ List.mem_cons_self c cs
        · exact List.mem_cons_of_mem c (ih c true h)
    · rw [sqz_cons_ne p two cs hc] at h
      rcases List.mem_cons.mp h with h | h
      · exact h ▸ List.mem_cons_self c cs
      · exact List.mem_cons_of_mem c (ih c false h)

theorem noTriple_tail {a : Char} {l : List Char}
    (h : noTriple (a :: l) = true) : noTriple l = true := by
  cases l with
  | nil => rfl
  | cons b t =>
    cases t with
    | nil => rfl
    | cons c t2 =>
      rw [noTriple_cons3] at h
      split at h
      · exact absurd h (by simp)
      · exact h

theorem noTriple_cons_of_head {x : Char} {m : List Char}
    (hm : noTriple m = true) (hh : ∀ d, m.head? = some d → d ≠ x) :
    noTriple (x :: m) = true := by
  cases m with
  | nil => rfl
  | cons a t =>
    cases t with
    | nil => rfl
    | cons b t2 =>
      have hax : a ≠ x := hh a rfl
      rw [noTriple_cons3, if_neg]
      · exact hm
      · rintro ⟨h1, _⟩
        exact hax h1.symm

theorem sqz_noTriple : ∀ (l : List Char) (p : Char),
    noTriple (p :: sqz p false l) = true ∧
    noTriple (sqz p true l) = true ∧
    (∀ d, (sqz p true l).head? = some d → d ≠ p) := by
  intro l
  induction l with
  | nil =>
    intro p
    refine ⟨rfl, rfl, ?_⟩
    intro d h
    simp [sqz] at h
  | cons c cs ih =>
    intro p
    by_cases hc : c = p
    · subst hc
      have ihc := ih c
      refine ⟨?_, ?_, ?_⟩
      · rw [sqz_cons_eq_one]
        have h1 : noTriple (c :: sqz c true cs) = true :=
          noTriple_cons_of_head ihc.2.1 ihc.2.2
        cases hs : sqz c true cs with
        | nil => rfl
        | cons d ds =>
          have hd : d ≠ c := ihc.2.2 d (by rw [hs]; rfl)
          rw [noTriple_cons3, if_neg (by rintro ⟨_, h2⟩; exact hd h2.symm)]
          rw [hs] at h1
          exact h1
      · rw [sqz_cons_eq_two]
        exact ihc.2.1
      · rw [sqz_cons_eq_two]
        exact ihc.2.2
    · have ihc := ih c
      have hhead : ∀ d, (c :: sqz c false cs).head? = some d → d ≠ p := by
        intro d h
        simp only [List.head?_cons, Option.some.injEq] at h
        exact fun hdp => hc (h ▸ hdp)
      refine ⟨?_, ?_, ?_⟩
      · rw [sqz_cons_ne p false cs hc]
        exact noTriple_cons_of_head ihc.1 hhead
      · rw [sqz_cons_ne p true cs hc]
        exact ihc.1
      · rw [sqz_cons_ne p true cs hc]
        exact hhead

theorem capRun2_noTriple (l : List Char) : noTriple (capRun2 l) = true := by
  cases l with
  | nil => rfl
  | cons c cs => exact (sqz_noTriple cs c).1

theorem sqz_id : ∀ (l : List Char) (p : Char),
    (noTriple (p :: l) = true → sqz p false l = l) ∧
    ((∀ d, l.head? = some d → d ≠ p) → noTriple l = true →
      sqz p true l = l) := by
  intro l
  induction l with
  | nil => intro p; exact ⟨fun _ => rfl, fun _ _ => rfl⟩
  | cons c cs ih =>
    intro p
    constructor
    · intro h
      by_cases hc : c = p
      · subst hc
        rw [sqz_cons_eq_one]
        have hcs : noTriple (c :: cs) = true := noTriple_tail h
        have hhead : ∀ d, cs.head? = some d → d ≠ c := by
          intro d hd
          cases cs with
          | nil => exact absurd hd (by simp)
          | cons e t =>
            simp only [List.head?_cons, Option.some.injEq] at hd
            subst hd
            intro hdc
            rw [noTriple_cons3, if_pos ⟨rfl, hdc.symm⟩] at h
            exact absurd h (by simp)
        rw [(ih c).2 hhead (noTriple_tail hcs)]
      · rw [sqz_cons_ne p false cs hc]
        rw [(ih c).1 (noTriple_tail h)]
    · intro hh h
      have hc : c ≠ p := hh c rfl
      rw [sqz_cons_ne p true cs hc]
      rw [(ih c).1 h]

theorem capRun2_id {l : List Char} (h : noTriple l = true) : capRun2 l = l := by
  cases l with
  | nil => rfl
  | cons c cs =>
    simp only [capRun2]
    rw [(sqz_id cs c).1 h]

theorem capRun2_cons (c : Char) (cs : List Char) :
    capRun2 (c :: cs) = c :: sqz c false cs := rfl

theorem capRun2_mem {x : Char} {l : List Char} (h : x ∈ capRun2 l) : x ∈ l := by
  cases l with
  | nil => simp [capRun2] at h
  | cons c cs =>
    rw [capRun2_cons] at h
    simp only [List.mem_cons] at h
    rcases h with h | h
    · exact h ▸ List.mem_cons_self c cs
    · exact List.mem_cons_of_mem c (sqz_mem cs c false h)

theorem runsAux_cons_eq (c : Char) (n : ℕ) (ds : List Char) :
    runsAux c n (c :: ds) = runsAux c (n + 1) ds := by
  simp [runsAux]

theorem runsAux_cons_ne {d c : Char} (n : ℕ) (ds : List Char) (h : d ≠ c) :
    runsAux c n (d :: ds) = (c, n) :: runsAux d 1 ds := by
  simp [runsAux, h]

/-- The fold caps every maximal run at two: reading from a run of `c` seen
once (`two = false`) or at least twice (`two = true`), the runs of the
squeezed rest are the runs of the rest with lengths capped at 2. -/
theorem sqz_runs : ∀ (l : List Char) (c : Char),
    runsAux c 1 (sqz c false l) =
      (runsAux c 1 l).map (fun p => (p.1, min p.2 2)) ∧
    (∀ n, 2 ≤ n → runsAux c 2 (sqz c true l) =
      (runsAux c n l).map (fun p => (p.1, min p.2 2))) := by
  intro l
  induction l with
  | nil =>
    intro c
    constructor
    · simp [sqz, runsAux]
    · intro n hn
      simp only [sqz, runsAux, List.map_cons, List.map_nil]
      rw [Nat.min_eq_right hn]
  | cons d ds ih =>
    intro c
    by_cases hd : d = c
    · subst hd
      constructor
      · rw [sqz_cons_eq_one, runsAux_cons_eq, runsAux_cons_eq]
        exact (ih d).2 2 (by omega)
      · intro n hn
        rw [sqz_cons_eq_two, runsAux_cons_eq]
        exact (ih d).2 (n + 1) (by omega)
    · constructor
      · rw [sqz_cons_ne c false ds hd, runsAux_cons_ne 1 _ hd,
          runsAux_cons_ne 1 _ hd]
        simp only [List.map_cons]
        rw [(ih d).1]
        norm_num
      · intro n hn
        rw [sqz_cons_ne c true ds hd, runsAux_cons_ne 2 _ hd,
          runsAux_cons_ne n _ hd]
        simp only [List.map_cons]
        rw [(ih d).1, Nat.min_eq_right hn]

/-- `capRun2` maps every maximal run of an identical character of length
`n` to the same character with length `min n 2`: a run of 3 or more is
collapsed to exactly 2, and runs of length 1 or 2 are unchanged. -/
theorem capRun2_runs (l : List Char) :
    runs (capRun2 l) = (runs l).map (fun p => (p.1, min p.2 2)) := by
  cases l with
  | nil => rfl
  | cons c cs =>
    rw [capRun2_cons]
    simp only [runs]
    exact (sqz_runs cs c).1

/-! ### Letter-triple freedom -/

theorem nlt_cons3 (a b c : Char) (t : List Char) :
    noLetterTriple (a :: b :: c :: t) =
      if isLowerAlpha a = true ∧ a = b ∧ b = c then false
      else noLetterTriple (b :: c :: t) := rfl

theorem nlt_tail {a : Char} {l : List Char}
    (h : noLetterTriple (a :: l) = true) : noLetterTriple l = true := by
  cases l with
  | nil => rfl
  | cons b t =>
    cases t with
    | nil => rfl
    | cons c t2 =>
      rw [nlt_cons3] at h
      split at h
      · exact absurd h (by simp)
      · exact h

theorem noTriple_imp_nlt {l : List Char} (h : noTriple l = true) :
    noLetterTriple l = true := by
  induction l with
  | nil => rfl
  | cons a t ih =>
    cases t with
    | nil => rfl
    | cons b t2 =>
      cases t2 with
      | nil => rfl
      | cons c t3 =>
        rw [noTriple_cons3] at h
        rw [nlt_cons3]
        split at h
        · exact absurd h (by simp)
        · rename_i hcond
          rw [if_neg (by rintro ⟨_, h1, h2⟩; exact hcond ⟨h1, h2⟩)]
          exact ih h

theorem nlt_imp_noTriple {l : List Char}
    (hlow : ∀ x ∈ l, isLowerAlpha x = true) (h : noLetterTriple l = true) :
    noTriple l = true := by
  induction l with
  | nil => rfl
  | cons a t ih =>
    cases t with
    | nil => rfl
    | cons b t2 =>
      cases t2 with
      | nil => rfl
      | cons c t3 =>
        rw [nlt_cons3] at h
        rw [noTriple_cons3]
        have ha : isLowerAlpha a = true := hlow a (List.mem_cons_self a _)
        split at h
        · exact absurd h (by simp)
        · rename_i hcond
          rw [if_neg (by rintro ⟨h1, h2⟩; exact hcond ⟨ha, h1, h2⟩)]
          exact ih (fun x hx => hlow x (List.mem_cons_of_mem a hx)) h

theorem nlt_cons_not_lower {x : Char} {m : List Char}
    (hx : isLowerAlpha x = false) (hm : noLetterTriple m = true) :
    noLetterTriple (x :: m) = true := by
  cases m with
  | nil => rfl
  | cons a t =>
    cases t with
    | nil => rfl
    | cons b t2 =>
      rw [nlt_cons3, if_neg]
      · exact hm
      · rintro ⟨h1, _⟩
        rw [hx] at h1
        exact absurd h1 (by simp)

/-- A block of letters with no triple, followed by text starting with a
non-letter, has no letter triple. -/
theorem nlt_append_block : ∀ (A : List Char),
    (∀ x ∈ A, isLowerAlpha x = true) → noTriple A = true →
    ∀ (t : List Char), noLetterTriple t = true →
    (∀ d, t.head? = some d → isLowerAlpha d = false) →
    noLetterTriple (A ++ t) = true := by
  intro A
  induction A with
  | nil => intro _ _ t ht _; simpa using ht
  | cons a A2 ih =>
    intro hlow hnt t ht hth
    cases A2 with
    | nil =>
      simp only [List.nil_append, List.cons_append]
      cases t with
      | nil => rfl
      | cons d t2 =>
        have hd : isLowerAlpha d = false := hth d rfl
        cases t2 with
        | nil => rfl
        | cons e t3 =>
          rw [nlt_cons3, if_neg]
          · exact ht
          · rintro ⟨_, h1, _⟩
            have := hlow a (List.mem_cons_self a _)
            rw [h1, hd] at this
            exact absurd this (by simp)
    | cons a2 A3 =>
      have hrest : noLetterTriple ((a2 :: A3) ++ t) = true :=
        ih (fun x hx => hlow x (List.mem_cons_of_mem a hx))
          (noTriple_tail hnt) t ht hth
      simp only [List.cons_append] at hrest ⊢
      cases A3 with
      | nil =>
        simp only [List.nil_append] at hrest ⊢
        cases t with
        | nil => rfl
        | cons d t2 =>
          have hd : isLowerAlpha d = false := hth d rfl
          rw [nlt_cons3, if_neg]
          · exact hrest
          · rintro ⟨_, _, h2⟩
            have := hlow a2 (List.mem_cons_of_mem a (List.mem_cons_self a2 _))
            rw [h2, hd] at this
            exact absurd this (by simp)
      | cons a3 A4 =>
        simp only [List.cons_append] at hrest ⊢
        rw [nlt_cons3, if_neg]
        · exact hrest
        · rintro ⟨_, h1, h2⟩
          rw [noTriple_cons3, if_pos ⟨h1, h2⟩] at hnt
          exact absurd hnt (by simp)

/-! ### Facts about `flushW` and `mlwAux` -/

theorem flushW_mem {x : Char} {acc : List Char}
    (h : x ∈ flushW capRun2 acc) : x ∈ acc := by
  cases acc with
  | nil => simp [flushW] at h
  | cons a as =>
    simp only [flushW] at h
    have := capRun2_mem h
    exact List.mem_reverse.mp this

theorem flushW_noTriple (acc : List Char) :
    noTriple (flushW capRun2 acc) = true := by
  cases acc with
  | nil => rfl
  | cons a as => exact capRun2_noTriple _

theorem mlw_mem {x : Char} : ∀ (l acc : List Char),
    x ∈ mlwAux capRun2 acc l → x ∈ acc ∨ x ∈ l := by
  intro l
  induction l with
  | nil =>
    intro acc h
    simp only [mlwAux] at h
    exact Or.inl (flushW_mem h)
  | cons c cs ih =>
    intro acc h
    simp only [mlwAux] at h
    split at h
    · rcases ih (c :: acc) h with h2 | h2
      · rcases List.mem_cons.mp h2 with h3 | h3
        · exact Or.inr (h3 ▸ List.mem_cons_self c cs)
        · exact Or.inl h3
      · exact Or.inr (List.mem_cons_of_mem c h2)
    · rcases List.mem_append.mp h with h2 | h2
      · exact Or.inl (flushW_mem h2)
      · rcases List.mem_cons.mp h2 with h3 | h3
        · exact Or.inr (h3 ▸ List.mem_cons_self c cs)
        · rcases ih [] h3 with h4 | h4
          · exact absurd h4 (by simp)
          · exact Or.inr (List.mem_cons_of_mem c h4)

theorem mlw_nlt : ∀ (l acc : List Char),
    (∀ x ∈ acc, isLowerAlpha x = true) →
    noLetterTriple (mlwAux capRun2 acc l) = true := by
  intro l
  induction l with
  | nil =>
    intro acc hacc
    simp only [mlwAux]
    exact noTriple_imp_nlt (flushW_noTriple acc)
  | cons c cs ih =>
    intro acc hacc
    simp only [mlwAux]
    by_cases hc : isLowerAlpha c = true
    · rw [if_pos hc]
      exact ih (c :: acc) (by
        intro x hx
        rcases List.mem_cons.mp hx with h | h
        · exact h ▸ hc
        · exact hacc x h)
    · rw [if_neg hc]
      have hcf : isLowerAlpha c = false := by
        cases h : isLowerAlpha c
        · rfl
        · exact absurd h hc
      have hM : noLetterTriple (mlwAux capRun2 [] cs) = true :=
        ih [] (by intro x hx; simp at hx)
      have hcM : noLetterTriple (c :: mlwAux capRun2 [] cs) = true :=
        nlt_cons_not_lower hcf hM
      exact nlt_append_block (flushW capRun2 acc)
        (fun x hx => hacc x (flushW_mem hx))
        (flushW_noTriple acc)
        (c :: mlwAux capRun2 [] cs) hcM
        (by intro d hd; simp only [List.head?_cons, Option.some.injEq] at hd
            exact hd ▸ hcf)

theorem normalizeChars_nlt (l : List Char) :
    noLetterTriple (normalizeChars l) = true := by
  unfold normalizeChars mapLetterRuns
  exact mlw_nlt (baseClean l) [] (by intro x hx; simp at hx)

theorem nlt_append_left : ∀ (X Y : List Char),
    noLetterTriple (X ++ Y) = true → noLetterTriple X = true := by
  intro X
  induction X with
  | nil => intro Y _; rfl
  | cons a X2 ih =>
    intro Y h
    cases X2 with
    | nil => rfl
    | cons b X3 =>
      cases X3 with
      | nil => rfl
      | cons c X4 =>
        simp only [List.cons_append] at h
        rw [nlt_cons3] at h ⊢
        split at h
        · exact absurd h (by simp)
        · rename_i hcond
          rw [if_neg hcond]
          have := ih Y (by simpa using h)
          exact this

theorem nlt_append_right : ∀ (X Y : List Char),
    noLetterTriple (X ++ Y) = true → noLetterTriple Y = true := by
  intro X
  induction X with
  | nil => intro Y h; simpa using h
  | cons a X2 ih =>
    intro Y h
    exact ih Y (nlt_tail (by simpa using h))

theorem mlw_id : ∀ (l acc : List Char),
    (∀ x ∈ acc, isLowerAlpha x = true) →
    noLetterTriple (acc.reverse ++ l) = true →
    mlwAux capRun2 acc l = acc.reverse ++ l := by
  intro l
  induction l with
  | nil =>
    intro acc hacc h
    simp only [mlwAux]
    cases acc with
    | nil => rfl
    | cons a as =>
      simp only [flushW, List.append_nil] at *
      refine capRun2_id (nlt_imp_noTriple ?_ ?_)
      · intro x hx
        exact hacc x (List.mem_reverse.mp hx)
      · exact h
  | cons c cs ih =>
    intro acc hacc h
    simp only [mlwAux]
    by_cases hc : isLowerAlpha c = true
    · rw [if_pos hc]
      have : mlwAux capRun2 (c :: acc) cs = (c :: acc).reverse ++ cs := by
        apply ih (c :: acc)
        · intro x hx
          rcases List.mem_cons.mp hx with h2 | h2
          · exact h2 ▸ hc
          · exact hacc x h2
        · rw [List.reverse_cons, List.append_assoc]
          simpa using h
      rw [this, List.reverse_cons, List.append_assoc]
      simp
    · rw [if_neg hc]
      have hflush : flushW capRun2 acc = acc.reverse := by
        cases acc with
        | nil => rfl
        | cons a as =>
          simp only [flushW]
          refine capRun2_id (nlt_imp_noTriple ?_ ?_)
          · intro x hx
            exact hacc x (List.mem_reverse.mp hx)
          · exact nlt_append_left _ _ h
      have hcs : mlwAux capRun2 [] cs = cs := by
        apply ih []
        · intro x hx; simp at hx
        · have h2 := nlt_append_right acc.reverse _ h
          simpa using nlt_tail h2
      rw [hflush, hcs]

theorem mlw_head : ∀ (l acc : List Char),
    (mlwAux capRun2 acc l).head? = (acc.reverse ++ l).head? := by
  intro l
  induction l with
  | nil =>
    intro acc
    simp only [mlwAux, List.append_nil]
    cases acc with
    | nil => rfl
    | cons a as =>
      simp only [flushW]
      cases hrev : (a :: as).reverse with
      | nil => exact absurd hrev (by simp)
      | cons b bs => rw [capRun2_cons]; rfl
  | cons c cs ih =>
    intro acc
    simp only [mlwAux]
    by_cases hc : isLowerAlpha c = true
    · rw [if_pos hc, ih (c :: acc), List.reverse_cons, List.append_assoc]
      rfl
    · rw [if_neg hc]
      cases acc with
      | nil => rfl
      | cons a as =>
        simp only [flushW]
        cases hrev : (a :: as).reverse with
        | nil => exact absurd hrev (by simp)
        | cons b bs => rw [capRun2_cons]; rfl

/-! ### Whitespace-structure lemmas -/

theorem ndw_cons2 (a b : Char) (t : List Char) :
    noDoubleWs (a :: b :: t) =
      if isWsChar a = true ∧ isWsChar b = true then false
      else noDoubleWs (b :: t) := rfl

theorem ndw_tail {a : Char} {l : List Char}
    (h : noDoubleWs (a :: l) = true) : noDoubleWs l = true := by
  cases l with
  | nil => rfl
  | cons b t =>
    rw [ndw_cons2] at h
    split at h
    · exact absurd h (by simp)
    · exact h

theorem ndw_cons_of {x : Char} {m : List Char}
    (hm : noDoubleWs m = true)
    (hh : ∀ d, m.head? = some d → ¬(isWsChar x = true ∧ isWsChar d = true)) :
    noDoubleWs (x :: m) = true := by
  cases m with
  | nil => rfl
  | cons a t =>
    rw [ndw_cons2, if_neg (hh a rfl)]
    exact hm

/-- The head of `cwAux true l` (still inside a whitespace run) is never
whitespace. -/
theorem cw_true_head : ∀ (l : List Char) (d : Char),
    (cwAux true l).head? = some d → isWsChar d = false := by
  intro l
  induction l with
  | nil => intro d h; simp [cwAux] at h
  | cons c cs ih =>
    intro d h
    by_cases hc : isWsChar c = true
    · simp only [cwAux, if_pos hc, if_pos rfl] at h
      exact ih d h
    · have hcf : isWsChar c = false := by
        cases h2 : isWsChar c
        · rfl
        · exact absurd h2 hc
      simp only [cwAux, hcf] at h
      simp only [Bool.false_eq_true, if_false, List.head?_cons,
        Option.some.injEq] at h
      exact h ▸ hcf

theorem cw_ndw : ∀ (l : List Char) (b : Bool),
    noDoubleWs (cwAux b l) = true := by
  intro l
  induction l with
  | nil => intro b; rfl
  | cons c cs ih =>
    intro b
    by_cases hc : isWsChar c = true
    · cases b with
      | true =>
        simp only [cwAux, if_pos hc, if_pos rfl]
        exact ih true
      | false =>
        simp only [cwAux, if_pos hc]
        simp only [Bool.false_eq_true, if_false]
        refine ndw_cons_of (ih true) ?_
        intro d hd
        rintro ⟨_, hdw⟩
        rw [cw_true_head cs d hd] at hdw
        exact absurd hdw (by simp)
    · have hcf : isWsChar c = false := by
        cases h2 : isWsChar c
        · rfl
        · exact absurd h2 hc
      simp only [cwAux, hcf, Bool.false_eq_true, if_false]
      refine ndw_cons_of (ih false) ?_
      intro d _
      rintro ⟨hcw, _⟩
      rw [hcf] at hcw
      exact absurd hcw (by simp)

theorem cw_mem : ∀ (l : List Char) (b : Bool) (x : Char),
    x ∈ cwAux b l → x = ' ' ∨ (x ∈ l ∧ isWsChar x = false) := by
  intro l
  induction l with
  | nil => intro b x h; simp [cwAux] at h
  | cons c cs ih =>
    intro b x h
    by_cases hc : isWsChar c = true
    · cases b with
      | true =>
        simp only [cwAux, if_pos hc, if_pos rfl] at h
        rcases ih true x h with h2 | h2
        · exact Or.inl h2
        · exact Or.inr ⟨List.mem_cons_of_mem c h2.1, h2.2⟩
      | false =>
        simp only [cwAux, if_pos hc, Bool.false_eq_true, if_false] at h
        rcases List.mem_cons.mp h with h2 | h2
        · exact Or.inl h2
        · rcases ih true x h2 with h3 | h3
          · exact Or.inl h3
          · exact Or.inr ⟨List.mem_cons_of_mem c h3.1, h3.2⟩
    · have hcf : isWsChar c = false := by
        cases h2 : isWsChar c
        · rfl
        · exact absurd h2 hc
      simp only [cwAux, hcf, Bool.false_eq_true, if_false] at h
      rcases List.mem_cons.mp h with h2 | h2
      · exact Or.inr ⟨h2 ▸ List.mem_cons_self c cs, h2 ▸ hcf⟩
      · rcases ih false x h2 with h3 | h3
        · exact Or.inl h3
        · exact Or.inr ⟨List.mem_cons_of_mem c h3.1, h3.2⟩

theorem cw_id : ∀ (l : List Char),
    noDoubleWs l = true → (∀ x ∈ l, isWsChar x = true → x = ' ') →
    cwAux false l = l := by
  intro l
  induction l with
  | nil => intro _ _; rfl
  | cons c cs ih =>
    intro hndw hsp
    by_cases hc : isWsChar c = true
    · have hcsp : c = ' ' := hsp c (List.mem_cons_self c cs) hc
      simp only [cwAux, if_pos hc, Bool.false_eq_true, if_false]
      have htail : cwAux true cs = cs := by
        cases cs with
        | nil => rfl
        | cons d ds =>
          have hd : isWsChar d = false := by
            rw [ndw_cons2] at hndw
            by_cases hdw : isWsChar d = true
            · rw [if_pos ⟨hc, hdw⟩] at hndw
              exact absurd hndw (by simp)
            · cases h2 : isWsChar d
              · rfl
              · exact absurd h2 hdw
          have hih := ih (ndw_tail hndw)
            (fun x hx hw => hsp x (List.mem_cons_of_mem c hx) hw)
          simp only [cwAux, hd, Bool.false_eq_true, if_false] at hih ⊢
          exact hih
      rw [htail, hcsp]
    · have hcf : isWsChar c = false := by
        cases h2 : isWsChar c
        · rfl
        · exact absurd h2 hc
      simp only [cwAux, hcf, Bool.false_eq_true, if_false]
      rw [ih (ndw_tail hndw)
        (fun x hx hw => hsp x (List.mem_cons_of_mem c hx) hw)]

theorem dw_head {l : List Char} {d : Char}
    (h : (l.dropWhile isWsChar).head? = some d) : isWsChar d = false := by
  induction l with
  | nil => simp [List.dropWhile] at h
  | cons c cs ih =>
    by_cases hc : isWsChar c = true
    · rw [List.dropWhile_cons_of_pos hc] at h
      exact ih h
    · have hcf : isWsChar c = false := by
        cases h2 : isWsChar c
        · rfl
        · exact absurd h2 hc
      rw [List.dropWhile_cons_of_neg (by rw [hcf]; simp)] at h
      simp only [List.head?_cons, Option.some.injEq] at h
      exact h ▸ hcf

theorem dw_ndw {l : List Char} (h : noDoubleWs l = true) :
    noDoubleWs (l.dropWhile isWsChar) = true := by
  induction l with
  | nil => exact h
  | cons c cs ih =>
    by_cases hc : isWsChar c = true
    · rw [List.dropWhile_cons_of_pos hc]
      exact ih (ndw_tail h)
    · rwa [List.dropWhile_cons_of_neg (by
        cases h2 : isWsChar c
        · simp
        · exact absurd h2 hc)]

theorem dw_mem {x : Char} {l : List Char} (h : x ∈ l.dropWhile isWsChar) :
    x ∈ l :=
  (List.dropWhile_sublist isWsChar).subset h

theorem dw_id {l : List Char}
    (h : ∀ d, l.head? = some d → isWsChar d = false) :
    l.dropWhile isWsChar = l := by
  cases l with
  | nil => rfl
  | cons c cs =>
    have := h c rfl
    rw [List.dropWhile_cons_of_neg (by rw [this]; simp)]

theorem dtw_cons (c : Char) (cs : List Char) :
    dropTrailingWs (c :: cs) =
      if (dropTrailingWs cs).isEmpty && isWsChar c then []
      else c :: dropTrailingWs cs := rfl

theorem dtw_mem {x : Char} : ∀ {l : List Char},
    x ∈ dropTrailingWs l → x ∈ l := by
  intro l
  induction l with
  | nil => intro h; simp [dropTrailingWs] at h
  | cons c cs ih =>
    intro h
    rw [dtw_cons] at h
    split at h
    · simp at h
    · rcases List.mem_cons.mp h with h2 | h2
      · exact h2 ▸ List.mem_cons_self c cs
      · exact List.mem_cons_of_mem c (ih h2)

theorem dtw_head {l : List Char} {d : Char}
    (h : (dropTrailingWs l).head? = some d) : l.head? = some d := by
  cases l with
  | nil => simp [dropTrailingWs] at h
  | cons c cs =>
    rw [dtw_cons] at h
    split at h
    · simp at h
    · simpa using h

theorem dtw_ndw : ∀ {l : List Char}, noDoubleWs l = true →
    noDoubleWs (dropTrailingWs l) = true := by
  intro l
  induction l with
  | nil => intro h; exact h
  | cons c cs ih =>
    intro h
    rw [dtw_cons]
    split
    · rfl
    · rename_i hcond
      refine ndw_cons_of (ih (ndw_tail h)) ?_
      intro d hd
      have hcs : cs.head? = some d := dtw_head hd
      cases cs with
      | nil => simp at hcs
      | cons e t =>
        simp only [List.head?_cons, Option.some.injEq] at hcs
        subst hcs
        rw [ndw_cons2] at h
        rintro ⟨h1, h2⟩
        rw [if_pos ⟨h1, h2⟩] at h
        exact absurd h (by simp)

theorem dtw_last : ∀ {l : List Char} {d : Char},
    (dropTrailingWs l).getLast? = some d → isWsChar d = false := by
  intro l
  induction l with
  | nil => intro d h; simp [dropTrailingWs] at h
  | cons c cs ih =>
    intro d h
    rw [dtw_cons] at h
    split at h
    · simp at h
    · rename_i hcond
      cases hr : dropTrailingWs cs with
      | nil =>
        rw [hr] at h hcond
        simp only [List.getLast?_singleton, Option.some.injEq] at h
        simp only [List.isEmpty_nil, Bool.true_and] at hcond
        rw [← h]
        cases h2 : isWsChar c
        · rfl
        · exact absurd h2 (by simpa using hcond)
      | cons r rs =>
        rw [hr, List.getLast?_cons_cons] at h
        exact ih (hr ▸ h)

theorem dtw_id : ∀ {l : List Char},
    (∀ d, l.getLast? = some d → isWsChar d = false) →
    dropTrailingWs l = l := by
  intro l
  induction l with
  | nil => intro _; rfl
  | cons c cs ih =>
    intro h
    rw [dtw_cons]
    cases cs with
    | nil =>
      have := h c (by simp)
      simp [dropTrailingWs, this]
    | cons e t =>
      have htail : dropTrailingWs (e :: t) = e :: t := by
        apply ih
        intro d hd
        exact h d (by rw [List.getLast?_cons_cons]; exact hd)
      rw [htail]
      simp

theorem ndw_append_block : ∀ (A : List Char),
    (∀ x ∈ A, isWsChar x = false) →
    ∀ (t : List Char), noDoubleWs t = true → noDoubleWs (A ++ t) = true := by
  intro A
  induction A with
  | nil => intro _ t ht; simpa using ht
  | cons a A2 ih =>
    intro hA t ht
    have ha : isWsChar a = false := hA a (List.mem_cons_self a _)
    have hrest : noDoubleWs (A2 ++ t) = true :=
      ih (fun x hx => hA x (List.mem_cons_of_mem a hx)) t ht
    simp only [List.cons_append]
    refine ndw_cons_of hrest ?_
    intro d _
    rintro ⟨h1, _⟩
    rw [ha] at h1
    exact absurd h1 (by simp)

theorem mlw_ndw : ∀ (l acc : List Char),
    (∀ x ∈ acc, isLowerAlpha x = true) → noDoubleWs l = true →
    noDoubleWs (mlwAux capRun2 acc l) = true := by
  intro l
  induction l with
  | nil =>
    intro acc hacc _
    simp only [mlwAux]
    have : noDoubleWs (flushW capRun2 acc ++ []) = true :=
      ndw_append_block _
        (fun x hx => lower_not_ws (hacc x (flushW_mem hx))) [] rfl
    simpa using this
  | cons c cs ih =>
    intro acc hacc h
    simp only [mlwAux]
    by_cases hc : isLowerAlpha c = true
    · rw [if_pos hc]
      exact ih (c :: acc) (by
        intro x hx
        rcases List.mem_cons.mp hx with h2 | h2
        · exact h2 ▸ hc
        · exact hacc x h2) (ndw_tail h)
    · rw [if_neg hc]
      refine ndw_append_block _
        (fun x hx => lower_not_ws (hacc x (flushW_mem hx))) _ ?_
      refine ndw_cons_of (ih [] (by intro x hx; simp at hx) (ndw_tail h)) ?_
      intro d hd
      have hdcs : cs.head? = some d := by
        have := mlw_head cs []
        simp only [List.reverse_nil, List.nil_append] at this
        rw [this] at hd
        exact hd
      cases cs with
      | nil => simp at hdcs
      | cons e t =>
        simp only [List.head?_cons, Option.some.injEq] at hdcs
        subst hdcs
        rw [ndw_cons2] at h
        rintro ⟨h1, h2⟩
        rw [if_pos ⟨h1, h2⟩] at h
        exact absurd h (by simp)

theorem getLast?_mem_chars : ∀ {l : List Char} {a : Char},
    l.getLast? = some a → a ∈ l := by
  intro l
  induction l with
  | nil => intro a h; simp at h
  | cons c cs ih =>
    intro a h
    cases cs with
    | nil =>
      simp only [List.getLast?_singleton, Option.some.injEq] at h
      exact h ▸ List.mem_cons_self c []
    | cons e t =>
      rw [List.getLast?_cons_cons] at h
      exact List.mem_cons_of_mem c (ih h)

theorem getLast?_append_right : ∀ (A : List Char) {t : List Char},
    t ≠ [] → (A ++ t).getLast? = t.getLast? := by
  intro A
  induction A with
  | nil => intro t _; rfl
  | cons a A2 ih =>
    intro t ht
    simp only [List.cons_append]
    cases hA : A2 ++ t with
    | nil =>
      exact absurd (List.append_eq_nil.mp hA).2 ht
    | cons e r =>
      rw [List.getLast?_cons_cons]
      rw [← hA]
      exact ih ht

theorem mlw_ne_nil {cs : List Char} (h : cs ≠ []) :
    mlwAux capRun2 [] cs ≠ [] := by
  intro hM
  have := mlw_head cs []
  rw [hM] at this
  simp only [List.head?_nil, List.reverse_nil, List.nil_append] at this
  cases cs with
  | nil => exact h rfl
  | cons c t => simp at this

theorem mlw_last : ∀ (l acc : List Char),
    (∀ x ∈ acc, isLowerAlpha x = true) →
    (∀ d, l.getLast? = some d → isWsChar d = false) →
    (l = [] → acc ≠ []) →
    ∀ d, (mlwAux capRun2 acc l).getLast? = some d → isWsChar d = false := by
  intro l
  induction l with
  | nil =>
    intro acc hacc _ _ d hd
    simp only [mlwAux] at hd
    have hmem : d ∈ flushW capRun2 acc := getLast?_mem_chars hd
    exact lower_not_ws (hacc d (flushW_mem hmem))
  | cons c cs ih =>
    intro acc hacc hlast _ d hd
    simp only [mlwAux] at hd
    by_cases hc : isLowerAlpha c = true
    · rw [if_pos hc] at hd
      refine ih (c :: acc) (by
        intro x hx
        rcases List.mem_cons.mp hx with h2 | h2
        · exact h2 ▸ hc
        · exact hacc x h2) ?_ (by intro _; simp) d hd
      intro e he
      refine hlast e ?_
      cases cs with
      | nil => simp at he
      | cons f t => rw [List.getLast?_cons_cons]; exact he
    · rw [if_neg hc] at hd
      rw [getLast?_append_right _ (by simp)] at hd
      cases hcs : cs with
      | nil =>
        subst hcs
        simp only [mlwAux, flushW] at hd
        simp only [List.getLast?_singleton, Option.some.injEq] at hd
        rw [← hd]
        exact hlast c (by simp)
      | cons e t =>
        have hM : mlwAux capRun2 [] cs ≠ [] := by
          rw [hcs]
          exact mlw_ne_nil (by simp)
        cases hM2 : mlwAux capRun2 [] cs with
        | nil => exact absurd hM2 hM
        | cons m ms =>
          rw [hM2, List.getLast?_cons_cons, ← hM2] at hd
          refine ih [] (by intro x hx; simp at hx) ?_ ?_ d hd
          · intro f hf
            refine hlast f ?_
            cases cs with
            | nil => simp at hf
            | cons g t2 => rw [List.getLast?_cons_cons]; exact hf
          · intro h2
            rw [hcs] at h2
            simp at h2

/-! ### The shape of `baseClean` and `normalizeChars` output -/

theorem keepAlnumWs_class (y : Char) :
    isLowerAlpha (keepAlnumWs y) = true ∨ isDigitChar (keepAlnumWs y) = true ∨
    isWsChar (keepAlnumWs y) = true := by
  unfold keepAlnumWs
  split
  · rename_i h
    rcases Bool.or_eq_true_iff.mp h with h2 | h2
    · rcases Bool.or_eq_true_iff.mp h2 with h3 | h3
      · exact Or.inl h3
      · exact Or.inr (Or.inl h3)
    · exact Or.inr (Or.inr h2)
  · exact Or.inr (Or.inr space_ws)

theorem baseClean_mem {x : Char} {l : List Char} (h : x ∈ baseClean l) :
    isLowerAlpha x = true ∨ isDigitChar x = true ∨ x = ' ' := by
  unfold baseClean at h
  have h2 := dw_mem (dtw_mem h)
  rcases cw_mem _ false x h2 with h3 | h3
  · exact Or.inr (Or.inr h3)
  · obtain ⟨hmem, hnws⟩ := h3
    obtain ⟨y, _, hy⟩ := List.mem_map.mp hmem
    rcases keepAlnumWs_class y with h4 | h4 | h4
    · exact Or.inl (hy ▸ h4)
    · exact Or.inr (Or.inl (hy ▸ h4))
    · rw [hy] at h4
      rw [h4] at hnws
      exact absurd hnws (by simp)

theorem baseClean_ndw (l : List Char) : noDoubleWs (baseClean l) = true :=
  dtw_ndw (dw_ndw (cw_ndw _ false))

theorem baseClean_head {l : List Char} {d : Char}
    (h : (baseClean l).head? = some d) : isWsChar d = false :=
  dw_head (dtw_head h)

theorem baseClean_last {l : List Char} {d : Char}
    (h : (baseClean l).getLast? = some d) : isWsChar d = false :=
  dtw_last h

theorem norm_mem {x : Char} {l : List Char} (h : x ∈ normalizeChars l) :
    isLowerAlpha x = true ∨ isDigitChar x = true ∨ x = ' ' := by
  unfold normalizeChars mapLetterRuns at h
  rcases mlw_mem _ [] h with h2 | h2
  · simp at h2
  · exact baseClean_mem h2

theorem norm_ndw (l : List Char) : noDoubleWs (normalizeChars l) = true :=
  mlw_ndw _ [] (by intro x hx; simp at hx) (baseClean_ndw l)

theorem norm_head {l : List Char} {d : Char}
    (h : (normalizeChars l).head? = some d) : isWsChar d = false := by
  unfold normalizeChars mapLetterRuns at h
  rw [mlw_head] at h
  simp only [List.reverse_nil, List.nil_append] at h
  exact baseClean_head h

theorem norm_last {l : List Char} {d : Char}
    (h : (normalizeChars l).getLast? = some d) : isWsChar d = false := by
  unfold normalizeChars mapLetterRuns at h
  cases hb : baseClean l with
  | nil =>
    rw [hb] at h
    simp only [mlwAux, flushW] at h
    simp at h
  | cons b bs =>
    rw [hb] at h
    refine mlw_last (b :: bs) [] (by intro x hx; simp at hx) ?_
      (by intro h2; simp at h2) d h
    intro e he
    exact baseClean_last (hb ▸ he)

theorem map_id_on {f : Char → Char} : ∀ {l : List Char},
    (∀ x ∈ l, f x = x) → l.map f = l := by
  intro l
  induction l with
  | nil => intro _; rfl
  | cons c cs ih =>
    intro h
    simp only [List.map_cons]
    rw [h c (List.mem_cons_self c cs),
      ih (fun x hx => h x (List.mem_cons_of_mem c hx))]

theorem class_toLower_id {x : Char}
    (h : isLowerAlpha x = true ∨ isDigitChar x = true ∨ x = ' ') :
    toLowerAscii x = x := by
  unfold toLowerAscii
  rcases h with h | h | h
  · rw [lower_not_upper h]; simp
  · rw [digit_not_upper h]; simp
  · subst h; rw [space_not_upper]; simp

theorem class_keep_id {x : Char}
    (h : isLowerAlpha x = true ∨ isDigitChar x = true ∨ x = ' ') :
    keepAlnumWs x = x := by
  unfold keepAlnumWs
  rcases h with h | h | h
  · rw [h]; simp
  · rw [h]; simp
  · subst h; rw [space_ws]; simp

theorem class_ws_space {x : Char}
    (h : isLowerAlpha x = true ∨ isDigitChar x = true ∨ x = ' ')
    (hw : isWsChar x = true) : x = ' ' := by
  rcases h with h | h | h
  · rw [lower_not_ws h] at hw; exact absurd hw (by simp)
  · rw [digit_not_ws h] at hw; exact absurd hw (by simp)
  · exact h

/-- Normalization is idempotent at the character-list level. -/
theorem normalizeChars_idem (l : List Char) :
    normalizeChars (normalizeChars l) = normalizeChars l := by
  have hmem : ∀ x ∈ normalizeChars l,
      isLowerAlpha x = true ∨ isDigitChar x = true ∨ x = ' ' :=
    fun x hx => norm_mem hx
  have h1 : (normalizeChars l).map toLowerAscii = normalizeChars l :=
    map_id_on (fun x hx => class_toLower_id (hmem x hx))
  have h2 : (normalizeChars l).map keepAlnumWs = normalizeChars l :=
    map_id_on (fun x hx => class_keep_id (hmem x hx))
  have h3 : collapseWs (normalizeChars l) = normalizeChars l :=
    cw_id _ (norm_ndw l) (fun x hx hw => class_ws_space (hmem x hx) hw)
  have h4 : (normalizeChars l).dropWhile isWsChar = normalizeChars l :=
    dw_id (fun d hd => norm_head hd)
  have h5 : dropTrailingWs (normalizeChars l) = normalizeChars l :=
    dtw_id (fun d hd => norm_last hd)
  conv_lhs => rw [normalizeChars, baseClean, collapseWs, h1, h2]
  rw [show cwAux false (normalizeChars l) = normalizeChars l from h3, h4, h5]
  unfold mapLetterRuns
  exact mlw_id _ [] (by intro x hx; simp at hx)
    (by simpa using normalizeChars_nlt l)

/-! ### Numeral and format lemmas -/

theorem addJ_jnum (a b : ℕ) : addJ (jnum a) (jnum b) = jnum (a + b) := by
  unfold addJ jnum
  simp only [JNum.mk.injEq]
  constructor
  · push_cast
    ring
  · ring

theorem foldl_addJ_jnum : ∀ (xs : List ℕ) (a : ℕ),
    (xs.map jnum).foldl addJ (jnum a) = jnum (a + xs.sum) := by
  intro xs
  induction xs with
  | nil => intro a; simp [jnum]
  | cons y ys ih =>
    intro a
    simp only [List.map_cons, List.foldl_cons]
    rw [addJ_jnum, ih, List.sum_cons, Nat.add_assoc]

theorem reduceAddJ_map_jnum (l : List ℕ) :
    reduceAddJ (l.map jnum) = jnum l.sum := by
  cases l with
  | nil => simp [reduceAddJ, jnum]
  | cons x xs =>
    simp only [List.map_cons, reduceAddJ]
    rw [foldl_addJ_jnum, List.sum_cons]

theorem mulJ_jnum_three (a : ℕ) : mulJ (jnum a) ⟨3, 1⟩ = jnum (a * 3) := by
  unfold mulJ jnum
  simp only [JNum.mk.injEq]
  constructor
  · push_cast
    ring
  · ring

/-! ### Structure of solver results -/

theorem solveChars_insufficient {c : List Char}
    (h : (extractNumbers c).length < 2) :
    solveChars c = .error .insufficientNumbers := by
  unfold solveChars
  rw [if_pos h]

theorem solveChallenge_of_solveChars {c : String} {e : SolveError}
    (h : solveChars c.data = .error e) : solveChallenge c = .error e := by
  unfold solveChallenge
  rw [h]

theorem solveChallenge_of_ok {c : String} {l : List Char}
    (h : solveChars c.data = .ok l) : solveChallenge c = .ok (String.mk l) := by
  unfold solveChallenge
  rw [h]

/-! ### Claim theorems -/

/-- C2: for every challenge from which fewer than two NumberTokens are
extracted, `solveChallenge` fails with the InsufficientNumbers error and
never returns an Answer. -/
theorem c2_insufficient_numbers_hard_failure (c : String)
    (h : (extractNumbers c.data).length < 2) :
    solveChallenge c = .error .insufficientNumbers :=
  solveChallenge_of_solveChars (solveChars_insufficient h)

/-- C2 witness: the spec's scenario 5 input yields a single NumberToken and
fails. -/
theorem c2_witness :
    solveChallenge "just some noise with only one number: 7" =
      .error .insufficientNumbers :=
  c2_insufficient_numbers_hard_failure _ (by decide)

/-- C5: a challenge with at least two extracted numbers whose cue text
matches no operation keyword of any family falls through every branch and
returns the sum of all extracted numbers, formatted to two decimals. -/
theorem c5_no_cue_defaults_to_sum (c : String)
    (hlen : 2 ≤ (extractNumbers c.data).length)
    (h1 : subtractionCue (opText c.data) = false)
    (h2 : tripleCue (opText c.data) = false)
    (h3 : doubleCue (opText c.data) = false)
    (h4 : multiplyCue (opText c.data) = false)
    (h5 : perEachTimesCue (opText c.data) = false)
    (h6 : divisionCue (opText c.data) = false) :
    solveChallenge c =
      .ok (String.mk (toFixedJ (jnum (extractNumbers c.data).sum))) := by
  have hans : inferAnswer (extractNumbers c.data) (opText c.data) =
      jnum (extractNumbers c.data).sum := by
    unfold inferAnswer
    rw [h1, h2, h3, h4, h5, h6]
    simp only [Bool.false_and, Bool.false_eq_true, if_false]
    exact reduceAddJ_map_jnum _
  refine solveChallenge_of_ok ?_
  unfold solveChars
  rw [if_neg (by omega), hans]

/-- C5 witness: an input with two literal numbers and no operation keyword
is summed. -/
theorem c5_witness : solveChallenge "7 and 21" = .ok "28.00" :=
  (c5_no_cue_defaults_to_sum "7 and 21" (by decide) (by decide) (by decide)
    (by decide) (by decide) (by decide) (by decide)).trans rfl

/-- C1 counterexample: with the divide branch taken and a zero second
operand the solver does not fail — it returns the Answer string
"Infinity" — and the spec's own example input "divide ten by zero" fails
with InsufficientNumbers ("zero" is not a recognized number word, and
"ten" is followed by a letter in the stripped text). -/
theorem c1_counterexample :
    solveChallenge "divide 10 by 0" = .ok "Infinity" ∧
    solveChallenge "divide ten by zero" = .error .insufficientNumbers :=
  ⟨rfl, rfl⟩

/-- C1 amended: when the divide branch fires with a nonzero first and zero
second extracted number, `solveChallenge` returns the Answer "Infinity"
(the JavaScript rendering of the infinite quotient) instead of failing. -/
theorem c1_divide_by_zero_returns_infinity (c : String) (a : ℕ)
    (rest : List ℕ)
    (hnums : extractNumbers c.data = a :: 0 :: rest) (ha : a ≠ 0)
    (h1 : (subtractionCue (opText c.data) && resultCue (opText c.data)) =
      false)
    (h2 : tripleCue (opText c.data) = false)
    (h3 : doubleCue (opText c.data) = false)
    (h4 : multiplyCue (opText c.data) = false)
    (h5 : (perEachTimesCue (opText c.data) && totalCue (opText c.data)) =
      false)
    (h6 : divisionCue (opText c.data) = true)
    (h7 : totalCue (opText c.data) = false) :
    solveChallenge c = .ok "Infinity" := by
  have hans : inferAnswer (extractNumbers c.data) (opText c.data) =
      divJ (jnum a) (jnum 0) := by
    unfold inferAnswer
    rw [hnums, h1, h2, h3, h4, h5, h6, h7]
    simp [List.headD]
  have hfix : toFixedJ (divJ (jnum a) (jnum 0)) = "Infinity".data := by
    have hdj : divJ (jnum a) (jnum 0) = ⟨(a : ℤ), 0⟩ := by
      unfold divJ jnum
      simp
    rw [hdj]
    unfold toFixedJ
    rw [if_pos rfl, if_neg (by
      simp only [Int.natCast_eq_zero]
      exact ha), if_pos (by
      simp only [Int.natCast_pos]
      exact Nat.pos_of_ne_zero ha)]
  have : solveChars c.data = .ok ("Infinity".data) := by
    unfold solveChars
    rw [if_neg (by rw [hnums]; simp), hans, hfix]
  exact (solveChallenge_of_ok this).trans rfl

/-- C1 witness: a divide challenge with literal operands 15 and 0. -/
theorem c1_witness : solveChallenge "divide 15 by 0" = .ok "Infinity" :=
  c1_divide_by_zero_returns_infinity "divide 15 by 0" 15 [] (by decide)
    (by decide) (by decide) (by decide) (by decide) (by decide) (by decide)
    (by decide) (by decide)

/-- C7 counterexample: on the spec's input "tripple the value of twelve"
the full-strip solver extracts only [12] — no 3 is injected as an operand —
so it fails with InsufficientNumbers instead of returning "36.00"
(moreover "tripple" does not even match the /triple/ cue). -/
theorem c7_counterexample :
    solveChallenge "tripple the value of twelve" =
      .error .insufficientNumbers ∧
    extractNumbers "tripple the value of twelve".data = [12] :=
  ⟨rfl, rfl⟩

/-- C7 amended: a challenge that does extract at least two numbers, misses
the subtraction branch and matches the triple cue is computed as the first
extracted number times 3, formatted to two decimals.  The triple operand 3
is a multiplier in the computation, never an extracted NumberToken. -/
theorem c7_triple_multiplies_first_by_three (c : String) (a b : ℕ)
    (rest : List ℕ)
    (hnums : extractNumbers c.data = a :: b :: rest)
    (h1 : (subtractionCue (opText c.data) && resultCue (opText c.data)) =
      false)
    (h2 : tripleCue (opText c.data) = true) :
    solveChallenge c = .ok (String.mk (toFixedJ (jnum (a * 3)))) := by
  have hans : inferAnswer (extractNumbers c.data) (opText c.data) =
      jnum (a * 3) := by
    unfold inferAnswer
    rw [hnums, h1, h2]
    simp only [Bool.false_eq_true, if_false, if_true, List.map_cons,
      List.headD_cons]
    exact mulJ_jnum_three a
  refine (solveChallenge_of_ok ?_)
  unfold solveChars
  rw [if_neg (by rw [hnums]; simp), hans]

/-- C7 witness: a triple challenge that does carry two numbers. -/
theorem c7_witness : solveChallenge "triple 7 and 2" = .ok "21.00" :=
  (c7_triple_multiplies_first_by_three "triple 7 and 2" 7 2 [] (by decide)
    (by decide) (by decide)).trans rfl

/-- C3 counterexample: on the spec's concrete input the full-strip solver
of bot.js extracts only [20] — the obfuscated "fiVVVe" folds to "fivve",
which no number-word pattern matches — and fails with InsufficientNumbers
instead of returning "25.00". -/
theorem c3_counterexample :
    solveChallenge
      "the BALL weighs  tWenTy Kilos aNd ANother weighs  fiVVVe kilos what is the total" =
      .error .insufficientNumbers :=
  rfl

/-- C3 amended: on that input the full-strip solver extracts only [20],
while the older selective-merge solver of part_000 (which folds repeated
letters all the way to one, recovering "five") extracts [20, 5], infers
add from the cue "total", and returns "25.00". -/
theorem c3_ball_challenge_selective_merge :
    Campaign.solveChallenge
      "the BALL weighs  tWenTy Kilos aNd ANother weighs  fiVVVe kilos what is the total" =
      .ok "25.00" ∧
    extractNumbers
      "the BALL weighs  tWenTy Kilos aNd ANother weighs  fiVVVe kilos what is the total".data =
      [20] :=
  ⟨rfl, rfl⟩

/-- C6: the Normalizer's repeated-letter fold maps every maximal run of an
identical character of length `n` to the same character with length
`min n 2` — so every run of 3 or more is collapsed down to exactly 2, and
runs of length 1 or 2 (legitimate doubles) are left unchanged; on a string
already free of 3-runs the fold is the identity; and consequently no run
of an identical letter in any `normalize` output exceeds length 2. -/
theorem c6_letter_fold_invariant :
    (∀ l : List Char, runs (capRun2 l) =
      (runs l).map (fun p => (p.1, min p.2 2))) ∧
    (∀ l : List Char, noTriple l = true → capRun2 l = l) ∧
    (∀ s : String, noLetterTriple (normalize s).data = true) :=
  ⟨capRun2_runs, fun _ h => capRun2_id h, fun s => normalizeChars_nlt s.data⟩

/-- C6 witness: the quadruple run in "baaaab" is collapsed to exactly two,
a legitimate double is untouched, and a normalized obfuscated input has no
letter 3-run. -/
theorem c6_witness :
    runs (capRun2 "baaaab".data) =
      (runs "baaaab".data).map (fun p => (p.1, min p.2 2)) ∧
    capRun2 "tee".data = "tee".data ∧
    noLetterTriple (normalize "miSSSissippi!  heLLLLo").data = true :=
  ⟨c6_letter_fold_invariant.1 _, c6_letter_fold_invariant.2.1 _ (by decide),
    c6_letter_fold_invariant.2.2 _⟩

/-- C8: normalization is idempotent — applying the Normalizer to its own
output returns it unchanged, for every input string. -/
theorem c8_normalize_idempotent (s : String) :
    normalize (normalize s) = normalize s := by
  unfold normalize
  exact congrArg String.mk (normalizeChars_idem s.data)

/-- C9: the deterministic solver is a pure function of the challenge
string: invoked twice in sequence in the ambient bot state, both
invocations produce the same outcome, and neither invocation changes the
state. -/
theorem c9_solver_deterministic (c : String) (st : BotState) :
    (solveInvoke c ((solveInvoke c st).2)).1 = (solveInvoke c st).1 ∧
    (solveInvoke c st).2 = st :=
  ⟨rfl, rfl⟩

/-- C10: in the full-strip solver, when no number words are recognized the
literal digit values pass through a deduplicating set, so a challenge whose
only numeric content is two equal literal digit runs yields a single
NumberToken and fails with InsufficientNumbers. -/
theorem c10_equal_digit_literals_dedup (c : String) (d : ℕ)
    (hw : wordNums (strippedText c.data) = [])
    (hd : digitMatches (normalizeChars c.data) = [d, d]) :
    extractNumbers c.data = [d] ∧
    solveChallenge c = .error .insufficientNumbers := by
  have hext : extractNumbers c.data = [d] := by
    unfold extractNumbers
    rw [hw, hd]
    simp [dedupFirstOcc, dedupSeen]
  refine ⟨hext, solveChallenge_of_solveChars (solveChars_insufficient ?_)⟩
  rw [hext]
  simp

/-- C10 witness: "add 5 and 5" carries two equal digit literals yet fails. -/
theorem c10_witness :
    extractNumbers "add 5 and 5".data = [5] ∧
    solveChallenge "add 5 and 5" = .error .insufficientNumbers :=
  c10_equal_digit_literals_dedup "add 5 and 5" 5 (by decide) (by decide)
